import Mathlib

set_option maxRecDepth 8000

/-!
# Verification of the xFFT audio visualizer core

Shallow embedding of `xFFT.py`: the spectral band-pass filter
(`apply_bandpass`, built from scipy's `rfft`/`irfft` and numpy's Blackman
window), the per-block audio callback, and the control events (play/pause,
reset, cutoff edits, source change).  Exact real/complex arithmetic models
the floating-point numerics; rationals model the frequency comparisons; the
closure-captured mutable locals of `run_visualizer` become an explicit
state record.
-/

namespace XFFT

/-- `block_size = 2048` from the source. -/
abbrev blockSize : ℕ := 2048

/-- Number of bins of the real transform: `block_size / 2 + 1 = 1025`. -/
abbrev nBins : ℕ := blockSize / 2 + 1

/-! ## The discrete Fourier transform, scipy conventions

`scipy.fft.rfft`/`irfft` use the kernel `exp (-2*pi*I*j*k/n)` forward and
`exp (2*pi*I*j*k/n)/n` backward.  We write the forward kernel as powers of
the conjugate of the primitive root `zeta n = exp (2*pi*I/n)`. -/

/-- The primitive `n`-th root of unity used by the transform kernels. -/
noncomputable def zeta (n : ℕ) : ℂ := Complex.exp (2 * Real.pi * Complex.I / n)

/-- Forward DFT (scipy convention, no normalisation):
`X_k = sum_j x_j * exp(-2*pi*I*j*k/n)`. -/
noncomputable def dftC (n : ℕ) (x : Fin n → ℂ) (k : Fin n) : ℂ :=
  ∑ j : Fin n, x j * (starRingEnd ℂ) (zeta n) ^ (j.val * k.val)

/-- Inverse DFT (scipy convention, `1/n` normalisation):
`x_j = (sum_k X_k * exp(2*pi*I*j*k/n)) / n`. -/
noncomputable def idftC (n : ℕ) (X : Fin n → ℂ) (j : Fin n) : ℂ :=
  (∑ k : Fin n, X k * zeta n ^ (j.val * k.val)) / n

theorem zeta_pow_n (n : ℕ) (hn : n ≠ 0) : zeta n ^ n = 1 := by
  have h : (n : ℂ) ≠ 0 := Nat.cast_ne_zero.mpr hn
  rw [zeta, ← Complex.exp_nat_mul, ← Complex.exp_two_pi_mul_I]
  congr 1
  field_simp

theorem isPrimitiveRoot_zeta (n : ℕ) (hn : n ≠ 0) : IsPrimitiveRoot (zeta n) n :=
  Complex.isPrimitiveRoot_exp n hn

theorem zeta_ne_zero (n : ℕ) : zeta n ≠ 0 := Complex.exp_ne_zero _

theorem conj_zeta (n : ℕ) : (starRingEnd ℂ) (zeta n) = (zeta n)⁻¹ := by
  rw [zeta, ← Complex.exp_conj, ← Complex.exp_neg]
  congr 1
  simp [map_div₀, Complex.conj_I, map_ofNat]
  ring

theorem zeta_mul_conj (n : ℕ) : zeta n * (starRingEnd ℂ) (zeta n) = 1 := by
  rw [conj_zeta, mul_inv_cancel₀ (zeta_ne_zero n)]

theorem conj_zeta_pow_n (n : ℕ) (hn : n ≠ 0) : (starRingEnd ℂ) (zeta n) ^ n = 1 := by
  rw [← map_pow, zeta_pow_n n hn, map_one]

/-- Sum of the powers of a nontrivial `n`-th root of unity vanishes. -/
theorem sum_pow_eq_zero {μ : ℂ} {n : ℕ} (hμn : μ ^ n = 1) (hμ : μ ≠ 1) :
    ∑ j : Fin n, μ ^ j.val = 0 := by
  have h := geom_sum_mul μ n
  rw [hμn, sub_self] at h
  rcases mul_eq_zero.mp h with h0 | h0
  · rw [Fin.sum_univ_eq_sum_range]
    exact h0
  · exact absurd (sub_eq_zero.mp h0) hμ

/-- Orthogonality of the DFT kernels. -/
theorem dft_orthogonality (n : ℕ) (hn : n ≠ 0) (a b : Fin n) :
    ∑ j : Fin n, zeta n ^ (a.val * j.val) * (starRingEnd ℂ) (zeta n) ^ (b.val * j.val)
      = if a = b then (n : ℂ) else 0 := by
  set z := zeta n with hz
  set w := (starRingEnd ℂ) (zeta n) with hw
  have hterm : ∀ j : Fin n,
      z ^ (a.val * j.val) * w ^ (b.val * j.val) = (z ^ a.val * w ^ b.val) ^ j.val := by
    intro j
    rw [mul_pow, ← pow_mul, ← pow_mul]
  rw [Finset.sum_congr rfl fun j _ => hterm j]
  by_cases hab : a = b
  · subst hab
    have hone : z ^ a.val * w ^ a.val = 1 := by
      rw [← mul_pow, zeta_mul_conj, one_pow]
    simp [hone, Finset.card_univ]
  · rw [if_neg hab]
    have hμn : (z ^ a.val * w ^ b.val) ^ n = 1 := by
      rw [mul_pow, ← pow_mul, ← pow_mul, mul_comm a.val n, mul_comm b.val n,
        pow_mul, pow_mul, zeta_pow_n n hn, conj_zeta_pow_n n hn, one_pow, one_pow, one_mul]
    have hμ : z ^ a.val * w ^ b.val ≠ 1 := by
      intro hone
      apply hab
      have hmul : z ^ a.val * (w ^ b.val * z ^ b.val) = z ^ b.val := by
        rw [← mul_assoc, hone, one_mul]
      have hwz : w ^ b.val * z ^ b.val = 1 := by
        rw [← mul_pow, mul_comm, zeta_mul_conj, one_pow]
      rw [hwz, mul_one] at hmul
      exact Fin.ext ((isPrimitiveRoot_zeta n hn).pow_inj a.isLt b.isLt hmul)
    exact sum_pow_eq_zero hμn hμ

/-- The forward transform inverts the inverse transform. -/
theorem dftC_idftC (n : ℕ) (hn : n ≠ 0) (X : Fin n → ℂ) (k : Fin n) :
    dftC n (idftC n X) k = X k := by
  have hcast : (n : ℂ) ≠ 0 := Nat.cast_ne_zero.mpr hn
  unfold dftC idftC
  have h1 : ∀ j : Fin n,
      (∑ m : Fin n, X m * zeta n ^ (j.val * m.val)) / n
          * (starRingEnd ℂ) (zeta n) ^ (j.val * k.val)
        = (∑ m : Fin n,
            X m * (zeta n ^ (m.val * j.val) * (starRingEnd ℂ) (zeta n) ^ (k.val * j.val))) / n := by
    intro j
    rw [div_mul_eq_mul_div, Finset.sum_mul]
    congr 1
    refine Finset.sum_congr rfl fun m _ => ?_
    rw [mul_assoc, Nat.mul_comm j.val m.val, Nat.mul_comm j.val k.val]
  rw [Finset.sum_congr rfl fun j _ => h1 j, ← Finset.sum_div, Finset.sum_comm]
  have h2 : ∀ m : Fin n,
      (∑ j : Fin n,
          X m * (zeta n ^ (m.val * j.val) * (starRingEnd ℂ) (zeta n) ^ (k.val * j.val)))
        = X m * (if m = k then (n : ℂ) else 0) := by
    intro m
    rw [← Finset.mul_sum]
    congr 1
    exact dft_orthogonality n hn m k
  rw [Finset.sum_congr rfl fun m _ => h2 m]
  have h3 : (∑ m : Fin n, X m * (if m = k then (n : ℂ) else 0)) = X k * n := by
    rw [Finset.sum_congr rfl fun m _ => by rw [mul_ite, mul_zero]]
    rw [Finset.sum_ite_eq' Finset.univ k fun m => X m * (n : ℂ)]
    simp
  rw [h3, mul_div_assoc, div_self hcast, mul_one]

/-- The inverse transform inverts the forward transform. -/
theorem idftC_dftC (n : ℕ) (hn : n ≠ 0) (x : Fin n → ℂ) (j : Fin n) :
    idftC n (dftC n x) j = x j := by
  have hcast : (n : ℂ) ≠ 0 := Nat.cast_ne_zero.mpr hn
  unfold idftC dftC
  have h1 : ∀ k : Fin n,
      (∑ m : Fin n, x m * (starRingEnd ℂ) (zeta n) ^ (m.val * k.val))
          * zeta n ^ (j.val * k.val)
        = ∑ m : Fin n,
            x m * (zeta n ^ (j.val * k.val) * (starRingEnd ℂ) (zeta n) ^ (m.val * k.val)) := by
    intro k
    rw [Finset.sum_mul]
    refine Finset.sum_congr rfl fun m _ => ?_
    ring
  rw [Finset.sum_congr rfl fun k _ => h1 k, Finset.sum_comm]
  have h2 : ∀ m : Fin n,
      (∑ k : Fin n,
          x m * (zeta n ^ (j.val * k.val) * (starRingEnd ℂ) (zeta n) ^ (m.val * k.val)))
        = x m * (if j = m then (n : ℂ) else 0) := by
    intro m
    rw [← Finset.mul_sum]
    congr 1
    exact dft_orthogonality n hn j m
  rw [Finset.sum_congr rfl fun m _ => h2 m]
  have h3 : (∑ m : Fin n, x m * (if j = m then (n : ℂ) else 0)) = x j * n := by
    rw [Finset.sum_congr rfl fun m _ => by rw [mul_ite, mul_zero]]
    rw [Finset.sum_ite_eq Finset.univ j fun m => x m * (n : ℂ)]
    simp
  rw [h3, mul_div_assoc, div_self hcast, mul_one]

/-! ## Exponent bookkeeping for mirrored bins -/

theorem conj_zeta_pow_sub (n : ℕ) (hn : n ≠ 0) (m t : ℕ) (ht : t ≤ n) :
    (starRingEnd ℂ) (zeta n) ^ (m * (n - t)) = zeta n ^ (m * t) := by
  have h1 : (starRingEnd ℂ) (zeta n) ^ (m * (n - t))
      * (starRingEnd ℂ) (zeta n) ^ (m * t) = 1 := by
    rw [← pow_add, ← Nat.mul_add, Nat.sub_add_cancel ht, Nat.mul_comm m n, pow_mul,
      conj_zeta_pow_n n hn, one_pow]
  have h2 : zeta n ^ (m * t) * (starRingEnd ℂ) (zeta n) ^ (m * t) = 1 := by
    rw [← mul_pow, zeta_mul_conj, one_pow]
  rw [eq_inv_of_mul_eq_one_left h1, eq_inv_of_mul_eq_one_left h2]

theorem zeta_pow_sub (n : ℕ) (hn : n ≠ 0) (m t : ℕ) (ht : t ≤ n) :
    zeta n ^ (m * (n - t)) = (starRingEnd ℂ) (zeta n) ^ (m * t) := by
  have h1 : zeta n ^ (m * (n - t)) * zeta n ^ (m * t) = 1 := by
    rw [← pow_add, ← Nat.mul_add, Nat.sub_add_cancel ht, Nat.mul_comm m n, pow_mul,
      zeta_pow_n n hn, one_pow]
  have h2 : (starRingEnd ℂ) (zeta n) ^ (m * t) * zeta n ^ (m * t) = 1 := by
    rw [← mul_pow, mul_comm, zeta_mul_conj, one_pow]
  rw [eq_inv_of_mul_eq_one_left h1, eq_inv_of_mul_eq_one_left h2]

/-! ## The real transform pair at `block_size = 2048` -/

/-- The index reflection `k ↦ (2048 - k) % 2048` on full-spectrum bins. -/
def negIdx (k : Fin blockSize) : Fin blockSize :=
  ⟨(blockSize - k.val) % blockSize, Nat.mod_lt _ (by norm_num)⟩

theorem negIdx_val_zero (k : Fin blockSize) (hk : k.val = 0) : (negIdx k).val = 0 := by
  simp [negIdx, hk]

theorem negIdx_val_pos (k : Fin blockSize) (hk : k.val ≠ 0) :
    (negIdx k).val = blockSize - k.val := by
  have h : k.val < 2048 := k.isLt
  simp only [negIdx, blockSize]
  omega

theorem negIdx_involutive : Function.Involutive negIdx := by
  intro k
  have h : k.val < 2048 := k.isLt
  apply Fin.ext
  simp only [negIdx, blockSize]
  omega

theorem conj_zeta_pow_negIdx (j k : Fin blockSize) :
    (starRingEnd ℂ) (zeta blockSize) ^ (j.val * (negIdx k).val)
      = zeta blockSize ^ (j.val * k.val) := by
  by_cases hk : k.val = 0
  · rw [negIdx_val_zero k hk, hk, Nat.mul_zero, pow_zero, pow_zero]
  · rw [negIdx_val_pos k hk,
      conj_zeta_pow_sub blockSize (by norm_num) j.val k.val (le_of_lt k.isLt)]

/-- `scipy.fft.rfft` on a real block: the forward transform at the
`block_size/2 + 1` non-negative-frequency bins. -/
noncomputable def rfft (x : Fin blockSize → ℝ) (k : Fin nBins) : ℂ :=
  ∑ j : Fin blockSize, (x j : ℂ) * (starRingEnd ℂ) (zeta blockSize) ^ (j.val * k.val)

/-- Hermitian extension of an `rfft`-shaped half spectrum to all
`block_size` bins, as `scipy.fft.irfft` interprets its input. -/
noncomputable def hermExt (X : Fin nBins → ℂ) (k : Fin blockSize) : ℂ :=
  if h : k.val ≤ blockSize / 2 then
    X ⟨k.val, by change k.val < blockSize / 2 + 1; omega⟩
  else
    (starRingEnd ℂ) (X ⟨blockSize - k.val, by
      have hk := k.isLt
      change blockSize - k.val < blockSize / 2 + 1
      omega⟩)

/-- `scipy.fft.irfft` followed by the source's `.real` projection. -/
noncomputable def irfft (X : Fin nBins → ℂ) (j : Fin blockSize) : ℝ :=
  (idftC blockSize (hermExt X) j).re

/-- `np.blackman(2048)`:
`0.42 - 0.5*cos(2*pi*j/2047) + 0.08*cos(4*pi*j/2047)`. -/
noncomputable def window (j : Fin blockSize) : ℝ :=
  0.42 - 0.5 * Real.cos (2 * Real.pi * j.val / (blockSize - 1))
    + 0.08 * Real.cos (4 * Real.pi * j.val / (blockSize - 1))

/-- `rfftfreq(block_size, 1/sr)`: the bin-center frequencies
`k * sr / block_size`, exact rationals. -/
def freqs (sr : ℕ) (k : Fin nBins) : ℚ := (k.val : ℚ) * sr / blockSize

/-- The masked spectrum inside `apply_bandpass`: `fft_data` of the
windowed block after `fft_data[~mask] = 0`, where
`mask = (freqs >= lowcut) & (freqs <= highcut)`. -/
noncomputable def maskedRfft (sr : ℕ) (data : Fin blockSize → ℝ)
    (lowcut highcut : ℚ) (k : Fin nBins) : ℂ :=
  if lowcut ≤ freqs sr k ∧ freqs sr k ≤ highcut
  then rfft (fun j => data j * window j) k else 0

/-- `apply_bandpass` from the source, on a full-length block:
window, forward real transform, zero the bins outside `[lowcut, highcut]`,
inverse transform, real part. -/
noncomputable def applyBandpassF (sr : ℕ) (data : Fin blockSize → ℝ)
    (lowcut highcut : ℚ) : Fin blockSize → ℝ :=
  irfft (maskedRfft sr data lowcut highcut)

/-! ## Realness and Hermitian symmetry -/

theorem hermExt_of_le (X : Fin nBins → ℂ) (k : Fin blockSize)
    (h : k.val ≤ blockSize / 2) (p : k.val < nBins) :
    hermExt X k = X ⟨k.val, p⟩ := dif_pos h

theorem hermExt_of_gt (X : Fin nBins → ℂ) (k : Fin blockSize)
    (h : ¬ k.val ≤ blockSize / 2) (p : blockSize - k.val < nBins) :
    hermExt X k = (starRingEnd ℂ) (X ⟨blockSize - k.val, p⟩) := dif_neg h

/-- The DC bin of the real transform of a real block is real. -/
theorem rfft_im_zero_of_dc (u : Fin blockSize → ℝ) (k : Fin nBins) (hk : k.val = 0) :
    (rfft u k).im = 0 := by
  unfold rfft
  rw [Complex.im_sum]
  refine Finset.sum_eq_zero fun j _ => ?_
  rw [hk, Nat.mul_zero, pow_zero, mul_one, Complex.ofReal_im]

/-- The forward kernel at the Nyquist bin is the real sign `(-1)^j`. -/
theorem conj_zeta_pow_nyquist (j : ℕ) :
    (starRingEnd ℂ) (zeta blockSize) ^ (j * (blockSize / 2))
      = (((-1 : ℝ) ^ j : ℝ) : ℂ) := by
  have hz : zeta blockSize ^ (blockSize / 2) = -1 := by
    rw [zeta, ← Complex.exp_nat_mul, ← Complex.exp_pi_mul_I]
    congr 1
    rw [show ((blockSize / 2 : ℕ) : ℂ) = 1024 by norm_num [blockSize]]
    rw [show ((blockSize : ℕ) : ℂ) = 2048 by norm_num [blockSize]]
    field_simp
    ring
  rw [mul_comm j (blockSize / 2), pow_mul, ← map_pow, hz]
  rw [show ((starRingEnd ℂ) (-1)) = -1 by simp]
  push_cast
  ring

/-- The Nyquist bin of the real transform of a real block is real. -/
theorem rfft_im_zero_of_nyquist (u : Fin blockSize → ℝ) (k : Fin nBins)
    (hk : k.val = blockSize / 2) : (rfft u k).im = 0 := by
  unfold rfft
  rw [Complex.im_sum]
  refine Finset.sum_eq_zero fun j _ => ?_
  rw [hk, conj_zeta_pow_nyquist j.val, ← Complex.ofReal_mul, Complex.ofReal_im]

/-- The inverse transform of a Hermitian-symmetric full spectrum is real. -/
theorem idftC_herm_im_zero (F : Fin blockSize → ℂ)
    (hF : ∀ k, F (negIdx k) = (starRingEnd ℂ) (F k)) (j : Fin blockSize) :
    (idftC blockSize F j).im = 0 := by
  rw [← Complex.conj_eq_iff_im]
  unfold idftC
  have hnum : ∑ k : Fin blockSize, (starRingEnd ℂ) (F k * zeta blockSize ^ (j.val * k.val))
      = ∑ k : Fin blockSize, F k * zeta blockSize ^ (j.val * k.val) := by
    calc
      ∑ k : Fin blockSize, (starRingEnd ℂ) (F k * zeta blockSize ^ (j.val * k.val))
          = ∑ k : Fin blockSize,
              (starRingEnd ℂ) (F (negIdx k) * zeta blockSize ^ (j.val * (negIdx k).val)) :=
        (Function.Bijective.sum_comp negIdx_involutive.bijective
          (fun m => (starRingEnd ℂ) (F m * zeta blockSize ^ (j.val * m.val)))).symm
      _ = ∑ k : Fin blockSize, F k * zeta blockSize ^ (j.val * k.val) := by
        refine Finset.sum_congr rfl fun k _ => ?_
        rw [map_mul, hF k, Complex.conj_conj, map_pow, conj_zeta_pow_negIdx j k]
  rw [map_div₀, map_natCast, map_sum, hnum]

/-- A half spectrum whose DC and Nyquist bins are real extends to a
Hermitian-symmetric full spectrum. -/
theorem hermExt_herm (X : Fin nBins → ℂ)
    (h0 : (X ⟨0, Nat.succ_pos _⟩).im = 0)
    (hN : (X ⟨blockSize / 2, Nat.lt_succ_self _⟩).im = 0) :
    ∀ k, hermExt X (negIdx k) = (starRingEnd ℂ) (hermExt X k) := by
  have hXc : ∀ (a b : ℕ) (ha : a < nBins) (hb : b < nBins), a = b →
      X ⟨a, ha⟩ = X ⟨b, hb⟩ := by
    intro a b ha hb h
    subst h
    rfl
  intro k
  have hklt : k.val < 2048 := k.isLt
  have hB : blockSize / 2 = 1024 := rfl
  have hBS : (blockSize : ℕ) = 2048 := rfl
  have hnb : (nBins : ℕ) = 1025 := rfl
  by_cases hk0 : k.val = 0
  · have hneg : (negIdx k).val = 0 := negIdx_val_zero k hk0
    rw [hermExt_of_le X (negIdx k) (by omega) (by omega),
      hermExt_of_le X k (by omega) (by omega)]
    rw [hXc _ 0 _ (Nat.succ_pos _) hneg, hXc _ 0 _ (Nat.succ_pos _) hk0]
    exact (Complex.conj_eq_iff_im.mpr h0).symm
  · have hneg : (negIdx k).val = blockSize - k.val := negIdx_val_pos k hk0
    by_cases hkmid : k.val < blockSize / 2
    · rw [hermExt_of_gt X (negIdx k) (by omega) (by omega),
        hermExt_of_le X k (by omega) (by omega)]
      congr 1
      exact hXc _ _ _ (by omega) (by omega)
    · by_cases hknyq : k.val = blockSize / 2
      · rw [hermExt_of_le X (negIdx k) (by omega) (by omega),
          hermExt_of_le X k (by omega) (by omega)]
        rw [hXc _ (blockSize / 2) _ (Nat.lt_succ_self _) (by omega),
          hXc _ (blockSize / 2) _ (Nat.lt_succ_self _) hknyq]
        exact (Complex.conj_eq_iff_im.mpr hN).symm
      · rw [hermExt_of_le X (negIdx k) (by omega) (by omega),
          hermExt_of_gt X k (by omega) (by omega)]
        rw [Complex.conj_conj]
        exact hXc _ _ _ (by omega) hneg

/-! ## The two filter theorems -/

theorem blockSize_ne_zero : (blockSize : ℕ) ≠ 0 := by decide

/-- A masked bin has zero imaginary part as soon as the unmasked bin does. -/
theorem masked_bin_im_zero (c : Prop) [Decidable c] (z : ℂ) (hz : z.im = 0) :
    (if c then z else 0).im = 0 := by
  by_cases h : c
  · rw [if_pos h]; exact hz
  · rw [if_neg h, Complex.zero_im]

/-- The masked spectrum has zero imaginary part at any bin where the
unmasked forward transform does. -/
theorem maskedRfft_im_zero (sr : ℕ) (data : Fin blockSize → ℝ)
    (low high : ℚ) (b : Fin nBins)
    (hb : (rfft (fun j => data j * window j) b).im = 0) :
    (maskedRfft sr data low high b).im = 0 :=
  masked_bin_im_zero _ _ hb

/-- Claim C2: `apply_bandpass` windows the block, takes the forward real
transform, zeroes exactly the bins with `freqs k < low` or `freqs k > high`
(leaving `low ≤ freqs k ≤ high` bins unchanged) and inverts; equivalently,
the forward real transform of the returned signal equals the masked
transform of the windowed block — in particular it is `0` at every
out-of-band bin and untouched at every in-band bin. -/
theorem rfft_applyBandpassF (sr : ℕ) (data : Fin blockSize → ℝ) (low high : ℚ)
    (k : Fin nBins) :
    rfft (applyBandpassF sr data low high) k
      = if low ≤ freqs sr k ∧ freqs sr k ≤ high
        then rfft (fun j => data j * window j) k else 0 := by
  have hM0 : (maskedRfft sr data low high ⟨0, Nat.succ_pos _⟩).im = 0 :=
    maskedRfft_im_zero sr data low high _ (rfft_im_zero_of_dc _ _ rfl)
  have hMN : (maskedRfft sr data low high ⟨blockSize / 2, Nat.lt_succ_self _⟩).im = 0 :=
    maskedRfft_im_zero sr data low high _ (rfft_im_zero_of_nyquist _ _ rfl)
  have hreal : ∀ j, (idftC blockSize (hermExt (maskedRfft sr data low high)) j).im = 0 :=
    idftC_herm_im_zero (hermExt (maskedRfft sr data low high))
      (hermExt_herm (maskedRfft sr data low high) hM0 hMN)
  have hk' : k.val < blockSize := by
    have h1 := k.isLt
    have h2 : (nBins : ℕ) = 1025 := rfl
    have h3 : (blockSize : ℕ) = 2048 := rfl
    omega
  have hcoe : ∀ j, ((applyBandpassF sr data low high j : ℝ) : ℂ)
      = idftC blockSize (hermExt (maskedRfft sr data low high)) j := by
    intro j
    refine Complex.ext rfl ?_
    rw [Complex.ofReal_im, hreal j]
  have hchain :
      rfft (applyBandpassF sr data low high) k
        = maskedRfft sr data low high k := by
    calc
      rfft (applyBandpassF sr data low high) k
          = dftC blockSize (idftC blockSize
              (hermExt (maskedRfft sr data low high))) ⟨k.val, hk'⟩ := by
        unfold rfft dftC
        exact Finset.sum_congr rfl fun j _ => by rw [hcoe j]
      _ = hermExt (maskedRfft sr data low high) ⟨k.val, hk'⟩ :=
        dftC_idftC blockSize blockSize_ne_zero _ _
      _ = maskedRfft sr data low high k := by
        rw [hermExt_of_le _ ⟨k.val, hk'⟩ (Nat.lt_succ_iff.mp k.isLt) k.isLt]
  rw [hchain]
  rfl

/-- The Hermitian extension of the real forward transform is the full
complex transform of the (real) input. -/
theorem hermExt_rfft (u : Fin blockSize → ℝ) (t : Fin blockSize) :
    hermExt (rfft u) t = dftC blockSize (fun j => (u j : ℂ)) t := by
  by_cases ht : t.val ≤ blockSize / 2
  · have hp : t.val < nBins := Nat.lt_succ_iff.mpr ht
    rw [hermExt_of_le _ t ht hp]
    rfl
  · have hp : blockSize - t.val < nBins := by
      have h1 := t.isLt
      have h2 : (nBins : ℕ) = 1025 := rfl
      have h3 : (blockSize : ℕ) = 2048 := rfl
      have h4 : (blockSize : ℕ) / 2 = 1024 := rfl
      omega
    rw [hermExt_of_gt _ t ht hp]
    unfold rfft dftC
    rw [map_sum]
    refine Finset.sum_congr rfl fun j _ => ?_
    rw [map_mul, Complex.conj_ofReal, map_pow, Complex.conj_conj]
    congr 1
    exact zeta_pow_sub blockSize blockSize_ne_zero j.val t.val (le_of_lt t.isLt)

/-- When the band keeps every bin, the filter returns the windowed block. -/
theorem applyBandpassF_allpass (sr : ℕ) (data : Fin blockSize → ℝ) (low high : ℚ)
    (hmask : ∀ k : Fin nBins, low ≤ freqs sr k ∧ freqs sr k ≤ high) (j : Fin blockSize) :
    applyBandpassF sr data low high j = data j * window j := by
  have hMfun : maskedRfft sr data low high
      = rfft (fun i => data i * window i) :=
    funext fun k => if_pos (hmask k)
  show (idftC blockSize (hermExt (maskedRfft sr data low high)) j).re
    = data j * window j
  rw [hMfun, funext (hermExt_rfft (fun i => data i * window i)),
    idftC_dftC blockSize blockSize_ne_zero _ j, Complex.ofReal_re]

/-- `np.blackman` vanishes at the left edge: `0.42 - 0.5 + 0.08 = 0`. -/
theorem window_zero (p : 0 < blockSize) : window ⟨0, p⟩ = 0 := by
  unfold window
  norm_num [Real.cos_zero]

/-! ## The engine state and event semantics

The closure-captured locals of `run_visualizer` (`y`, `sr`, the buffers,
the cutoffs, `filter_enabled`, `paused`, `audio_position`) become fields
of `VisState`.  `display_samples` and `freqsSr` record that the buffer
capacity and the `freqs` axis are computed once, from the sample rate at
initialisation, and are never recomputed on a source change. -/

/-- Python slicing `l[::4]`: every 4th element. -/
def everyFourth (l : List ℝ) : List ℝ :=
  (List.range ((l.length + 3) / 4)).map fun i => l.getD (4 * i) 0

/-- `deque.extend` with `maxlen = m`: keep the last `m` elements. -/
def pushAll (m : ℕ) (buf new : List ℝ) : List ℝ :=
  let t := buf ++ new
  t.drop (t.length - m)

/-- `deque.append` with `maxlen = 10`: keep the last 10 elements. -/
def pushSpec (buf : List (List ℝ)) (x : List ℝ) : List (List ℝ) :=
  let t := buf ++ [x]
  t.drop (t.length - 10)

/-- `20 * np.log10(np.abs(rfft(filtered_chunk * window)) + 1e-9)`. -/
noncomputable def spectrumOf (chunk : List ℝ) : List ℝ :=
  List.ofFn fun k : Fin nBins =>
    20 * Real.logb 10 (Complex.abs (rfft (fun j => chunk.getD j.val 0 * window j) k) + 1e-9)

/-- `apply_bandpass` on the list level, as called from the callback. -/
noncomputable def apply_bandpass (sr : ℕ) (data : List ℝ) (lowcut highcut : ℚ) : List ℝ :=
  List.ofFn (applyBandpassF sr (fun j => data.getD j.val 0) lowcut highcut)

/-- The mutable locals of `run_visualizer`. -/
structure VisState where
  y : List ℝ
  sr : ℕ
  freqsSr : ℕ
  display_samples : ℕ
  time_buffer : List ℝ
  spectrum_buffer : List (List ℝ)
  lowcut : ℚ
  highcut : ℚ
  filter_enabled : Bool
  paused : Bool
  audio_position : ℕ

/-- Exceptions the callback body can raise. -/
inductive CallbackErr where
  | unboundLocal
  | shapeMismatch
deriving DecidableEq

/-- `audio_callback`: returns what is written to `outdata` (or the raised
exception) together with the state after the call.  On the short-chunk
path `filtered_chunk` was never assigned, so the write raises
`UnboundLocalError` before `audio_position` is updated; on the full-chunk
path the buffer updates happen before the write and the position update
after it.  (`stop` is the source's local `end`, a Lean keyword.) -/
noncomputable def audio_callback (s : VisState) (frames : ℕ) :
    Except CallbackErr (List ℝ) × VisState :=
  if s.paused = true ∨ s.y.length ≤ s.audio_position then
    (Except.ok (List.replicate frames 0), s)
  else
    let start := s.audio_position
    let stop := min (start + frames) s.y.length
    let chunk := (s.y.drop start).take (stop - start)
    if chunk.length = blockSize then
      let filtered := if s.filter_enabled = true
        then apply_bandpass s.freqsSr chunk s.lowcut s.highcut
        else chunk
      let s1 := { s with
        time_buffer := pushAll s.display_samples s.time_buffer (everyFourth filtered),
        spectrum_buffer := pushSpec s.spectrum_buffer (spectrumOf filtered) }
      if filtered.length = frames then
        (Except.ok filtered, { s1 with audio_position := stop })
      else
        (Except.error CallbackErr.shapeMismatch, s1)
    else
      (Except.error CallbackErr.unboundLocal, s)

/-- `toggle_filter`. -/
def toggle_filter (s : VisState) : VisState :=
  { s with filter_enabled := !s.filter_enabled }

/-- `toggle_play`: `start_stream` sets `paused = False`, `stop_stream`
sets `paused = True`. -/
def toggle_play (s : VisState) : VisState :=
  { s with paused := !s.paused }

/-- `reset`. -/
def reset (s : VisState) : VisState :=
  { s with audio_position := 0, time_buffer := [], spectrum_buffer := [] }

/-- `max(20, min(sr/2, v))`. -/
def clampCut (sr : ℕ) (v : ℚ) : ℚ := max 20 (min ((sr : ℚ) / 2) v)

/-- `update_lowcut` on the parse result of the text (`none` = `ValueError`).
`highcut_box.set_val` re-enters `update_highcut`, whose clamp of the
already-clamped value is the identity, so the chained effect is
`highcut := lowcut`. -/
def update_lowcut (s : VisState) (t : Option ℚ) : VisState :=
  match t with
  | none => s
  | some v =>
    let c := clampCut s.sr v
    if s.highcut < c then { s with lowcut := c, highcut := c }
    else { s with lowcut := c }

/-- `update_highcut`, mirror image of `update_lowcut`. -/
def update_highcut (s : VisState) (t : Option ℚ) : VisState :=
  match t with
  | none => s
  | some v =>
    let c := clampCut s.sr v
    if c < s.lowcut then { s with lowcut := c, highcut := c }
    else { s with highcut := c }

/-- `change_file` on the outcome of the dialog + `librosa.load`
(`none` = cancel or load failure): `stop_stream` always runs first;
on success the new source is installed and `reset` runs. -/
def change_file (s : VisState) (r : Option (List ℝ × ℕ)) : VisState :=
  let s1 := { s with paused := true }
  match r with
  | none => s1
  | some (y2, sr2) => reset { s1 with y := y2, sr := sr2 }

/-- The user/device events that mutate the state. -/
inductive Event where
  | callback (frames : ℕ)
  | togglePlay
  | toggleFilter
  | resetBtn
  | setLow (t : Option ℚ)
  | setHigh (t : Option ℚ)
  | changeFile (r : Option (List ℝ × ℕ))

noncomputable def step (s : VisState) : Event → VisState
  | .callback f => (audio_callback s f).2
  | .togglePlay => toggle_play s
  | .toggleFilter => toggle_filter s
  | .resetBtn => reset s
  | .setLow t => update_lowcut s t
  | .setHigh t => update_highcut s t
  | .changeFile r => change_file s r

noncomputable def run (s : VisState) (es : List Event) : VisState := es.foldl step s

/-- The state right after `run_visualizer` loads its first file. -/
def initState (y : List ℝ) (sr : ℕ) : VisState where
  y := y
  sr := sr
  freqsSr := sr
  display_samples := sr / 10
  time_buffer := []
  spectrum_buffer := []
  lowcut := 100
  highcut := 1000
  filter_enabled := false
  paused := true
  audio_position := 0

theorem everyFourth_length (l : List ℝ) :
    (everyFourth l).length = (l.length + 3) / 4 := by
  simp [everyFourth]

theorem pushAll_length (m : ℕ) (buf new : List ℝ) :
    (pushAll m buf new).length = min (buf.length + new.length) m := by
  simp [pushAll]
  omega

theorem pushSpec_length (buf : List (List ℝ)) (x : List ℝ) :
    (pushSpec buf x).length = min (buf.length + 1) 10 := by
  simp [pushSpec]
  omega

/-! ## Frame lemmas: what each event leaves untouched -/

theorem audio_callback_skel (s : VisState) (f : ℕ) :
    ((audio_callback s f).2).y = s.y
    ∧ ((audio_callback s f).2).sr = s.sr
    ∧ ((audio_callback s f).2).freqsSr = s.freqsSr
    ∧ ((audio_callback s f).2).display_samples = s.display_samples
    ∧ ((audio_callback s f).2).lowcut = s.lowcut
    ∧ ((audio_callback s f).2).highcut = s.highcut
    ∧ ((audio_callback s f).2).filter_enabled = s.filter_enabled
    ∧ ((audio_callback s f).2).paused = s.paused := by
  rw [audio_callback]
  split
  · exact ⟨rfl, rfl, rfl, rfl, rfl, rfl, rfl, rfl⟩
  · dsimp only
    split
    · split <;> split <;> exact ⟨rfl, rfl, rfl, rfl, rfl, rfl, rfl, rfl⟩
    · exact ⟨rfl, rfl, rfl, rfl, rfl, rfl, rfl, rfl⟩

theorem audio_callback_buffer_bounds (s : VisState) (f : ℕ)
    (h1 : s.time_buffer.length ≤ s.display_samples)
    (h2 : s.spectrum_buffer.length ≤ 10) :
    ((audio_callback s f).2).time_buffer.length ≤ s.display_samples
    ∧ ((audio_callback s f).2).spectrum_buffer.length ≤ 10 := by
  rw [audio_callback]
  split
  · exact ⟨h1, h2⟩
  · dsimp only
    split
    · split <;> split <;>
        exact ⟨by rw [pushAll_length]; exact min_le_right _ _,
          by rw [pushSpec_length]; exact min_le_right _ _⟩
    · exact ⟨h1, h2⟩

theorem update_lowcut_skel (s : VisState) (t : Option ℚ) :
    (update_lowcut s t).time_buffer = s.time_buffer
    ∧ (update_lowcut s t).spectrum_buffer = s.spectrum_buffer
    ∧ (update_lowcut s t).display_samples = s.display_samples
    ∧ (update_lowcut s t).sr = s.sr := by
  cases t with
  | none => exact ⟨rfl, rfl, rfl, rfl⟩
  | some v =>
    simp only [update_lowcut]
    split <;> exact ⟨rfl, rfl, rfl, rfl⟩

theorem update_highcut_skel (s : VisState) (t : Option ℚ) :
    (update_highcut s t).time_buffer = s.time_buffer
    ∧ (update_highcut s t).spectrum_buffer = s.spectrum_buffer
    ∧ (update_highcut s t).display_samples = s.display_samples
    ∧ (update_highcut s t).sr = s.sr := by
  cases t with
  | none => exact ⟨rfl, rfl, rfl, rfl⟩
  | some v =>
    simp only [update_highcut]
    split <;> exact ⟨rfl, rfl, rfl, rfl⟩

theorem change_file_skel (s : VisState) (r : Option (List ℝ × ℕ)) :
    (change_file s r).display_samples = s.display_samples
    ∧ (change_file s r).freqsSr = s.freqsSr
    ∧ (change_file s r).lowcut = s.lowcut
    ∧ (change_file s r).highcut = s.highcut
    ∧ (change_file s r).filter_enabled = s.filter_enabled := by
  cases r with
  | none => exact ⟨rfl, rfl, rfl, rfl, rfl⟩
  | some p =>
    obtain ⟨y2, sr2⟩ := p
    exact ⟨rfl, rfl, rfl, rfl, rfl⟩

theorem step_display_samples (s : VisState) (e : Event) :
    (step s e).display_samples = s.display_samples := by
  cases e with
  | callback f => exact (audio_callback_skel s f).2.2.2.1
  | togglePlay => rfl
  | toggleFilter => rfl
  | resetBtn => rfl
  | setLow t => exact (update_lowcut_skel s t).2.2.1
  | setHigh t => exact (update_highcut_skel s t).2.2.1
  | changeFile r => exact (change_file_skel s r).1

theorem step_buffer_bounds (s : VisState) (e : Event)
    (h1 : s.time_buffer.length ≤ s.display_samples)
    (h2 : s.spectrum_buffer.length ≤ 10) :
    (step s e).time_buffer.length ≤ s.display_samples
    ∧ (step s e).spectrum_buffer.length ≤ 10 := by
  cases e with
  | callback f => exact audio_callback_buffer_bounds s f h1 h2
  | togglePlay => exact ⟨h1, h2⟩
  | toggleFilter => exact ⟨h1, h2⟩
  | resetBtn => exact ⟨Nat.zero_le _, Nat.zero_le _⟩
  | setLow t =>
    refine ⟨?_, ?_⟩
    · rw [show (step s (Event.setLow t)).time_buffer = s.time_buffer from
        (update_lowcut_skel s t).1]
      exact h1
    · rw [show (step s (Event.setLow t)).spectrum_buffer = s.spectrum_buffer from
        (update_lowcut_skel s t).2.1]
      exact h2
  | setHigh t =>
    refine ⟨?_, ?_⟩
    · rw [show (step s (Event.setHigh t)).time_buffer = s.time_buffer from
        (update_highcut_skel s t).1]
      exact h1
    · rw [show (step s (Event.setHigh t)).spectrum_buffer = s.spectrum_buffer from
        (update_highcut_skel s t).2.1]
      exact h2
  | changeFile r =>
    cases r with
    | none => exact ⟨h1, h2⟩
    | some p =>
      obtain ⟨y2, sr2⟩ := p
      exact ⟨Nat.zero_le _, Nat.zero_le _⟩

theorem clampCut_ge (sr : ℕ) (v : ℚ) : 20 ≤ clampCut sr v := le_max_left _ _

theorem step_cutoff_order (s : VisState) (e : Event)
    (h1 : 20 ≤ s.lowcut) (h2 : s.lowcut ≤ s.highcut) :
    20 ≤ (step s e).lowcut ∧ (step s e).lowcut ≤ (step s e).highcut := by
  cases e with
  | callback f =>
    have hl := (audio_callback_skel s f).2.2.2.2.1
    have hh := (audio_callback_skel s f).2.2.2.2.2.1
    show 20 ≤ ((audio_callback s f).2).lowcut
      ∧ ((audio_callback s f).2).lowcut ≤ ((audio_callback s f).2).highcut
    rw [hl, hh]
    exact ⟨h1, h2⟩
  | togglePlay => exact ⟨h1, h2⟩
  | toggleFilter => exact ⟨h1, h2⟩
  | resetBtn => exact ⟨h1, h2⟩
  | setLow t =>
    cases t with
    | none => exact ⟨h1, h2⟩
    | some v =>
      show 20 ≤ (update_lowcut s (some v)).lowcut
        ∧ (update_lowcut s (some v)).lowcut ≤ (update_lowcut s (some v)).highcut
      simp only [update_lowcut]
      split
      · exact ⟨clampCut_ge _ _, le_refl _⟩
      · rename_i hc
        exact ⟨clampCut_ge _ _, le_of_not_lt hc⟩
  | setHigh t =>
    cases t with
    | none => exact ⟨h1, h2⟩
    | some v =>
      show 20 ≤ (update_highcut s (some v)).lowcut
        ∧ (update_highcut s (some v)).lowcut ≤ (update_highcut s (some v)).highcut
      simp only [update_highcut]
      split
      · exact ⟨clampCut_ge _ _, le_refl _⟩
      · rename_i hc
        exact ⟨h1, le_of_not_lt hc⟩
  | changeFile r =>
    have hl := (change_file_skel s r).2.2.1
    have hh := (change_file_skel s r).2.2.2.1
    show 20 ≤ (change_file s r).lowcut
      ∧ (change_file s r).lowcut ≤ (change_file s r).highcut
    rw [hl, hh]
    exact ⟨h1, h2⟩


/-! ## Characterising the callback on its two playing paths -/

/-- While playing before end-of-file, a chunk that is not exactly
`block_size` long makes the callback raise `UnboundLocalError`
(`filtered_chunk` unassigned) with the state unchanged. -/
theorem audio_callback_short (s : VisState) (f : ℕ)
    (hp : s.paused = false)
    (hpos : s.audio_position < s.y.length)
    (hchunk : min (s.audio_position + f) s.y.length - s.audio_position ≠ blockSize) :
    audio_callback s f = (Except.error CallbackErr.unboundLocal, s) := by
  have hcond : ¬ (s.paused = true ∨ s.y.length ≤ s.audio_position) := by
    rintro (h | h)
    · rw [hp] at h
      simp at h
    · omega
  rw [audio_callback, if_neg hcond]
  dsimp only
  split
  · rename_i hcl
    rw [List.length_take, List.length_drop] at hcl
    exact absurd (by omega) hchunk
  · rfl

/-- While playing with at least `block_size` samples left and
`f = block_size`, the callback succeeds: the position advances to
`min(position + f, len(y))` and both rolling buffers grow by one
truncated batch. -/
theorem audio_callback_full (s : VisState) (f : ℕ)
    (hp : s.paused = false)
    (hpos : s.audio_position < s.y.length)
    (hchunk : min (s.audio_position + f) s.y.length - s.audio_position = blockSize)
    (hf : f = blockSize) :
    (audio_callback s f).2.audio_position = min (s.audio_position + f) s.y.length
    ∧ (audio_callback s f).2.time_buffer.length
        = min (s.time_buffer.length + 512) s.display_samples
    ∧ (audio_callback s f).2.spectrum_buffer.length
        = min (s.spectrum_buffer.length + 1) 10
    ∧ ∃ out, (audio_callback s f).1 = Except.ok out := by
  have hcond : ¬ (s.paused = true ∨ s.y.length ≤ s.audio_position) := by
    rintro (h | h)
    · rw [hp] at h
      simp at h
    · omega
  rw [audio_callback, if_neg hcond]
  dsimp only
  split
  · rename_i hcl
    split
    · rename_i hfe
      have hablen : (apply_bandpass s.freqsSr
          ((s.y.drop s.audio_position).take
            (min (s.audio_position + f) s.y.length - s.audio_position))
          s.lowcut s.highcut).length = f := by
        unfold apply_bandpass
        rw [List.length_ofFn, hf]
      split
      · refine ⟨rfl, ?_, ?_, ⟨_, rfl⟩⟩
        · rw [pushAll_length, everyFourth_length, hablen, hf]
          norm_num [blockSize]
        · rw [pushSpec_length]
      · rename_i hfl
        exact absurd hablen hfl
    · rename_i hfe
      have hclen : ((s.y.drop s.audio_position).take
          (min (s.audio_position + f) s.y.length - s.audio_position)).length = f := by
        rw [hcl, hf]
      split
      · refine ⟨rfl, ?_, ?_, ⟨_, rfl⟩⟩
        · rw [pushAll_length, everyFourth_length, hcl]
          norm_num [blockSize]
        · rw [pushSpec_length]
      · rename_i hfl
        exact absurd hclen hfl
  · rename_i hcl
    rw [List.length_take, List.length_drop] at hcl
    exact absurd (by omega) hcl

/-! ## Claim theorems -/

/-- Claim C10: when the band keeps every bin (`low ≤ 0` and
`sr/2 ≤ high`, so the mask is all-true), `apply_bandpass` returns the
elementwise product of the block with the Blackman window — the
transform pair is the identity and the window is never divided out — and
this differs from returning the block itself. -/
theorem applyBandpassF_allpass_windows (sr : ℕ) (data : Fin blockSize → ℝ)
    (low high : ℚ) (hl : low ≤ 0) (hh : (sr : ℚ) / 2 ≤ high) :
    (∀ j, applyBandpassF sr data low high j = data j * window j)
    ∧ ∃ d : Fin blockSize → ℝ, applyBandpassF sr d low high ≠ d := by
  have hmask : ∀ k : Fin nBins, low ≤ freqs sr k ∧ freqs sr k ≤ high := by
    intro k
    have hk : (k.val : ℚ) ≤ 1024 := by
      have h1 := k.isLt
      have h2 : (nBins : ℕ) = 1025 := rfl
      have h3 : k.val ≤ 1024 := by omega
      exact_mod_cast h3
    constructor
    · refine le_trans hl ?_
      unfold freqs
      positivity
    · refine le_trans ?_ hh
      unfold freqs
      rw [show ((blockSize : ℕ) : ℚ) = 2048 from by norm_num [blockSize]]
      rw [div_le_div_iff (by norm_num) (by norm_num)]
      have hs : (0 : ℚ) ≤ (sr : ℚ) := Nat.cast_nonneg sr
      nlinarith
  refine ⟨fun j => applyBandpassF_allpass sr data low high hmask j,
    fun _ => (1 : ℝ), fun hEq => ?_⟩
  have h0 := congrFun hEq (⟨0, by decide⟩ : Fin blockSize)
  rw [applyBandpassF_allpass sr (fun _ => (1 : ℝ)) low high hmask] at h0
  rw [window_zero] at h0
  norm_num at h0

/-- Witness for C10 at `sr = 44100`, `low = 0`, `high = 22050`, zero data. -/
theorem applyBandpassF_allpass_windows_witness :
    ((0 : ℚ) ≤ 0) ∧ ((44100 : ℚ) / 2 ≤ 22050)
    ∧ ((∀ j, applyBandpassF 44100 (fun _ => (0 : ℝ)) 0 22050 j
          = (fun _ : Fin blockSize => (0 : ℝ)) j * window j)
        ∧ ∃ d : Fin blockSize → ℝ, applyBandpassF 44100 d 0 22050 ≠ d) :=
  ⟨le_refl 0, by norm_num,
    applyBandpassF_allpass_windows 44100 (fun _ => (0 : ℝ)) 0 22050 (le_refl 0) (by norm_num)⟩

/-- Claim C9: on a full-length block, the list-level `apply_bandpass`
returns exactly `block_size` samples. -/
theorem apply_bandpass_length (sr : ℕ) (data : List ℝ) (low high : ℚ)
    (h : data.length = blockSize) :
    (apply_bandpass sr data low high).length = blockSize := by
  unfold apply_bandpass
  rw [List.length_ofFn]

/-- Witness for C9 on a concrete 2048-sample block. -/
theorem apply_bandpass_length_witness :
    (List.replicate 2048 (0 : ℝ)).length = blockSize
    ∧ (apply_bandpass 44100 (List.replicate 2048 (0 : ℝ)) 100 1000).length = blockSize :=
  ⟨by rw [List.length_replicate], apply_bandpass_length 44100 _ 100 1000 (by rw [List.length_replicate])⟩

/-- Claim C7: when paused, or at/after end of file (including an empty
source), the callback emits a silent block of the requested length and
leaves the whole state — position and both buffers included — unchanged. -/
theorem audio_callback_silent (s : VisState) (frames : ℕ)
    (h : s.paused = true ∨ s.y.length ≤ s.audio_position) :
    audio_callback s frames = (Except.ok (List.replicate frames 0), s) := by
  unfold audio_callback
  rw [if_pos h]

/-- Witness for C7: the freshly loaded (paused, empty-source) state. -/
theorem audio_callback_silent_witness :
    ((initState [] 44100).paused = true
      ∨ (initState [] 44100).y.length ≤ (initState [] 44100).audio_position)
    ∧ audio_callback (initState [] 44100) 64
        = (Except.ok (List.replicate 64 0), initState [] 44100) :=
  ⟨Or.inl rfl, audio_callback_silent _ 64 (Or.inl rfl)⟩

/-- Claim C6: cutoff edits.  Unparseable text retains the previous value;
a parsed value is clamped by `max(20, min(sr/2, ·))`; if the clamped edit
would invert the order, the other bound is pulled to match; at
`sr = 44100`, `setLowCut "5"` gives `low = 20` and `setHighCut "999999"`
gives `high = 22050`. -/
theorem update_cutoffs_clamp (s : VisState) (v : ℚ) :
    update_lowcut s none = s
    ∧ update_highcut s none = s
    ∧ (update_lowcut s (some v)).lowcut = clampCut s.sr v
    ∧ (update_lowcut s (some v)).highcut = max (clampCut s.sr v) s.highcut
    ∧ (update_highcut s (some v)).highcut = clampCut s.sr v
    ∧ (update_highcut s (some v)).lowcut = min (clampCut s.sr v) s.lowcut
    ∧ (s.sr = 44100 →
        (update_lowcut s (some 5)).lowcut = 20
        ∧ (update_highcut s (some 999999)).highcut = 22050) := by
  have h5 : clampCut 44100 5 = 20 := by
    norm_num [clampCut, min_def, max_def]
  have h9 : clampCut 44100 999999 = 22050 := by
    norm_num [clampCut, min_def, max_def]
  refine ⟨rfl, rfl, ?_, ?_, ?_, ?_, fun hsr => ⟨?_, ?_⟩⟩
  · simp only [update_lowcut]
    split <;> rfl
  · simp only [update_lowcut]
    split
    · rename_i hc
      exact (max_eq_left (le_of_lt hc)).symm
    · rename_i hc
      exact (max_eq_right (le_of_not_lt hc)).symm
  · simp only [update_highcut]
    split <;> rfl
  · simp only [update_highcut]
    split
    · rename_i hc
      exact (min_eq_left (le_of_lt hc)).symm
    · rename_i hc
      exact (min_eq_right (le_of_not_lt hc)).symm
  · simp only [update_lowcut]
    rw [hsr]
    split <;> (show clampCut 44100 5 = 20; exact h5)
  · simp only [update_highcut]
    rw [hsr]
    split <;> (show clampCut 44100 999999 = 22050; exact h9)

/-- Witness for C6's clamp instances at `sr = 44100`. -/
theorem update_cutoffs_clamp_witness :
    (initState [] 44100).sr = 44100
    ∧ (update_lowcut (initState [] 44100) (some 5)).lowcut = 20
    ∧ (update_highcut (initState [] 44100) (some 999999)).highcut = 22050 :=
  ⟨rfl, ((update_cutoffs_clamp (initState [] 44100) 5).2.2.2.2.2.2 rfl).1,
    ((update_cutoffs_clamp (initState [] 44100) 999999).2.2.2.2.2.2 rfl).2⟩

/-- Claim C8: `change_file` while playing stops the stream first; on a
failed load everything but `paused` is retained; on success the new
source is installed, position is zeroed and both buffers cleared; in both
cases the controller ends stopped and the filter configuration is
preserved. -/
theorem change_file_spec (s : VisState) (r : Option (List ℝ × ℕ))
    (hp : s.paused = false) :
    (change_file s r).paused = true
    ∧ (change_file s r).lowcut = s.lowcut
    ∧ (change_file s r).highcut = s.highcut
    ∧ (change_file s r).filter_enabled = s.filter_enabled
    ∧ (r = none → change_file s r = { s with paused := true })
    ∧ (∀ y2 sr2, r = some (y2, sr2) →
        (change_file s r).y = y2 ∧ (change_file s r).sr = sr2
        ∧ (change_file s r).audio_position = 0
        ∧ (change_file s r).time_buffer = []
        ∧ (change_file s r).spectrum_buffer = []) := by
  cases r with
  | none =>
    exact ⟨rfl, rfl, rfl, rfl, fun _ => rfl, fun y2 sr2 h => by simp at h⟩
  | some p =>
    obtain ⟨y2, sr2⟩ := p
    refine ⟨rfl, rfl, rfl, rfl, fun h => by simp at h, fun y3 sr3 h => ?_⟩
    obtain ⟨rfl, rfl⟩ : y2 = y3 ∧ sr2 = sr3 := by
      simpa using h
    exact ⟨rfl, rfl, rfl, rfl, rfl⟩

/-- Witness for C8: a playing state whose source change is cancelled. -/
theorem change_file_spec_witness :
    (toggle_play (initState [] 44100)).paused = false
    ∧ (change_file (toggle_play (initState [] 44100)) none).paused = true :=
  ⟨rfl, (change_file_spec (toggle_play (initState [] 44100)) none rfl).1⟩

/-- A playing state over a 4-sample source with filtering enabled. -/
def shortSrcState : VisState :=
  toggle_play (toggle_filter (initState (List.replicate 4 0) 44100))

/-- Claim C1 (code bug): on a short trailing chunk
(`0 < len(chunk) < block_size`) while playing with filtering enabled, the
callback does not write the chunk unfiltered — `filtered_chunk` was never
assigned on that path, so the write raises `UnboundLocalError` and the
state (position included) is left as it was. -/
theorem audio_callback_short_chunk_raises :
    shortSrcState.paused = false
    ∧ shortSrcState.filter_enabled = true
    ∧ 0 < shortSrcState.y.length
    ∧ shortSrcState.y.length < blockSize
    ∧ audio_callback shortSrcState 2048
        = (Except.error CallbackErr.unboundLocal, shortSrcState) := by
  have hlen : shortSrcState.y.length = 4 := by
    show (List.replicate 4 (0 : ℝ)).length = 4
    rw [List.length_replicate]
  refine ⟨rfl, rfl, by rw [hlen]; norm_num, ?_, ?_⟩
  · rw [hlen]
    change (4 : ℕ) < 2048
    omega
  · refine audio_callback_short _ 2048 rfl ?_ ?_
    · show (0 : ℕ) < shortSrcState.y.length
      rw [hlen]
      norm_num
    · show min ((0 : ℕ) + 2048) shortSrcState.y.length - 0 ≠ blockSize
      rw [hlen]
      change min (0 + 2048) 4 - 0 ≠ 2048
      omega


/-- A playing state over a 3000-sample source (filtering disabled). -/
def midSrcState : VisState :=
  toggle_play (initState (List.replicate 3000 0) 44100)

/-- Claim C3 (code bug): with `L = 3000` and `f = 2048`, the first
callback advances the position to 2048, but the second — still playing
and before end-of-file — raises `UnboundLocalError` on its 952-sample
chunk, so after two calls the position is 2048, not
`min(2*2048, 3000) = 3000`: the short chunk's samples are consumed from
the slice but the position never advances past them. -/
theorem audio_position_stalls_at_partial_block :
    midSrcState.paused = false
    ∧ (run midSrcState [Event.callback 2048]).audio_position = 2048
    ∧ (run midSrcState [Event.callback 2048]).audio_position
        < (run midSrcState [Event.callback 2048]).y.length
    ∧ (audio_callback (run midSrcState [Event.callback 2048]) 2048).1
        = Except.error CallbackErr.unboundLocal
    ∧ (run midSrcState [Event.callback 2048, Event.callback 2048]).audio_position = 2048
    ∧ (2048 : ℕ) ≠ min (2 * 2048) midSrcState.y.length := by
  have hy0 : midSrcState.y = List.replicate 3000 (0 : ℝ) := rfl
  have hyl : midSrcState.y.length = 3000 := by
    rw [hy0, List.length_replicate]
  have hp0 : midSrcState.paused = false := rfl
  have hpos0 : midSrcState.audio_position = 0 := rfl
  have hfull := audio_callback_full midSrcState 2048 hp0
    (by rw [hpos0, hyl]; norm_num)
    (by rw [hpos0, hyl]
        change min (0 + 2048) 3000 - 0 = 2048
        omega)
    rfl
  set s1 := (audio_callback midSrcState 2048).2 with hs1
  have hrun1 : run midSrcState [Event.callback 2048] = s1 := rfl
  have hskel := audio_callback_skel midSrcState 2048
  have hy1 : s1.y = midSrcState.y := hskel.1
  have hp1 : s1.paused = false := hskel.2.2.2.2.2.2.2.trans hp0
  have hpos1 : s1.audio_position = 2048 := by
    have h := hfull.1
    rw [hpos0, hyl] at h
    rw [h]
    change min (0 + 2048) 3000 = 2048
    omega
  have hshort := audio_callback_short s1 2048 hp1
    (by rw [hpos1, hy1, hyl]; norm_num)
    (by rw [hpos1, hy1, hyl]
        change min (2048 + 2048) 3000 - 2048 ≠ 2048
        omega)
  have hstate : (audio_callback s1 2048).2 = s1 := by
    rw [hshort]
  refine ⟨hp0, ?_, ?_, ?_, ?_, ?_⟩
  · rw [hrun1]
    exact hpos1
  · rw [hrun1, hpos1, hy1, hyl]
    norm_num
  · rw [hrun1, hshort]
  · simp only [run, List.foldl_cons, List.foldl_nil, step]
    rw [← hs1, hstate, hpos1]
  · rw [hyl]
    change (2048 : ℕ) ≠ min (2 * 2048) 3000
    omega

/-- Claim C4 (amended): at every reachable state the rolling buffers are
bounded by the capacities fixed at engine initialisation —
`len(TimeBuffer) ≤ sr₀/10` for the *initial* sample rate `sr₀` (the deque
capacity is never recomputed on a source change) and
`len(SpectrumBuffer) ≤ 10`. -/
theorem buffer_bounds_initial_rate (y : List ℝ) (sr : ℕ) (es : List Event) :
    (run (initState y sr) es).time_buffer.length ≤ sr / 10
    ∧ (run (initState y sr) es).spectrum_buffer.length ≤ 10 := by
  have key : ∀ (es : List Event) (s : VisState),
      s.time_buffer.length ≤ s.display_samples →
      s.spectrum_buffer.length ≤ 10 →
      (run s es).display_samples = s.display_samples
      ∧ (run s es).time_buffer.length ≤ s.display_samples
      ∧ (run s es).spectrum_buffer.length ≤ 10 := by
    intro es
    induction es with
    | nil =>
      intro s h1 h2
      exact ⟨rfl, h1, h2⟩
    | cons e rest ih =>
      intro s h1 h2
      have hd := step_display_samples s e
      have hb := step_buffer_bounds s e h1 h2
      have hrec := ih (step s e) (by rw [hd]; exact hb.1) hb.2
      refine ⟨hrec.1.trans hd, ?_, hrec.2.2⟩
      rw [← hd]
      exact hrec.2.1
  have h := key es (initState y sr) (Nat.zero_le _) (Nat.zero_le _)
  exact ⟨h.2.1, h.2.2⟩

/-- The state after switching a 44100 Hz session to an 8000 Hz source and
playing two full blocks. -/
noncomputable def c4Final : VisState :=
  run (initState [] 44100)
    [Event.changeFile (some (List.replicate 4096 0, 8000)), Event.togglePlay,
     Event.callback 2048, Event.callback 2048]

/-- Claim C4 counterexample: with the current source's rate 8000, the
spec's bound demands `len(TimeBuffer) ≤ 800`, but after two callbacks the
buffer holds 1024 samples — its capacity is still `44100/10 = 4410` from
the initial source. -/
theorem time_buffer_exceeds_current_rate_bound :
    c4Final.sr = 8000
    ∧ c4Final.time_buffer.length = 1024
    ∧ ¬ (c4Final.time_buffer.length ≤ c4Final.sr / 10) := by
  simp only [c4Final, run, List.foldl_cons, List.foldl_nil, step]
  set s2 := toggle_play (change_file (initState [] 44100)
    (some (List.replicate 4096 0, 8000))) with hs2
  have h2p : s2.paused = false := rfl
  have h2pos : s2.audio_position = 0 := rfl
  have h2y : s2.y = List.replicate 4096 (0 : ℝ) := rfl
  have h2sr : s2.sr = 8000 := rfl
  have h2yl : s2.y.length = 4096 := by rw [h2y, List.length_replicate]
  have h2tbl : s2.time_buffer.length = 0 := rfl
  have h2ds : s2.display_samples = 4410 := rfl
  have h3 := audio_callback_full s2 2048 h2p
    (by rw [h2pos, h2yl]; norm_num)
    (by rw [h2pos, h2yl]; norm_num [blockSize])
    rfl
  set s3 := (audio_callback s2 2048).2 with hs3
  have hskel3 := audio_callback_skel s2 2048
  have hy3 : s3.y = s2.y := hskel3.1
  have hsr3 : s3.sr = s2.sr := hskel3.2.1
  have hds3 : s3.display_samples = s2.display_samples := hskel3.2.2.2.1
  have hp3 : s3.paused = false := hskel3.2.2.2.2.2.2.2.trans h2p
  have hpos3 : s3.audio_position = 2048 := by
    have h := h3.1
    rw [h2pos, h2yl] at h
    exact h.trans (by norm_num)
  have htb3 : s3.time_buffer.length = 512 := by
    have h := h3.2.1
    rw [h2tbl, h2ds] at h
    exact h.trans (by norm_num)
  have h4 := audio_callback_full s3 2048 hp3
    (by rw [hpos3, hy3, h2yl]; norm_num)
    (by rw [hpos3, hy3, h2yl]; norm_num [blockSize])
    rfl
  have hskel4 := audio_callback_skel s3 2048
  have hsr4 : (audio_callback s3 2048).2.sr = 8000 := by
    rw [hskel4.2.1, hsr3, h2sr]
  have htb4 : (audio_callback s3 2048).2.time_buffer.length = 1024 := by
    have h := h4.2.1
    rw [htb3, hds3, h2ds] at h
    exact h.trans (by norm_num)
  refine ⟨hsr4, htb4, ?_⟩
  rw [htb4, hsr4]
  norm_num

/-- Claim C5 (amended): at every reachable state `20 ≤ low ≤ high`; the
Nyquist bound `high ≤ sampleRate/2` is enforced only at the moment a
cutoff is edited, against the then-current rate, and is not re-established
by a source change (nor checked for the initial defaults). -/
theorem cutoff_order_invariant (y : List ℝ) (sr : ℕ) (es : List Event) :
    20 ≤ (run (initState y sr) es).lowcut
    ∧ (run (initState y sr) es).lowcut ≤ (run (initState y sr) es).highcut := by
  have key : ∀ (es : List Event) (s : VisState),
      20 ≤ s.lowcut → s.lowcut ≤ s.highcut →
      20 ≤ (run s es).lowcut ∧ (run s es).lowcut ≤ (run s es).highcut := by
    intro es
    induction es with
    | nil =>
      intro s h1 h2
      exact ⟨h1, h2⟩
    | cons e rest ih =>
      intro s h1 h2
      have hs := step_cutoff_order s e h1 h2
      exact ih (step s e) hs.1 hs.2
  exact key es (initState y sr) (by norm_num [initState]) (by norm_num [initState])

/-- The state after raising the high cutoff to 20000 Hz at 44100 Hz and
then switching to an 8000 Hz source. -/
noncomputable def c5Final : VisState :=
  run (initState [] 44100)
    [Event.setHigh (some 20000), Event.changeFile (some ([], 8000))]

/-- Claim C5 counterexample: the filter configuration survives the source
change unclamped, so `high = 20000 > 4000 = sampleRate/2` for the new
8000 Hz source. -/
theorem highcut_exceeds_nyquist_after_change :
    c5Final.highcut = 20000
    ∧ c5Final.sr = 8000
    ∧ ¬ (c5Final.highcut ≤ (c5Final.sr : ℚ) / 2) := by
  have hclamp : clampCut (initState ([] : List ℝ) 44100).sr 20000 = 20000 := by
    norm_num [clampCut, initState, min_def, max_def]
  have hhigh : (update_highcut (initState [] 44100) (some 20000)).highcut = 20000 := by
    simp only [update_highcut]
    rw [hclamp]
    rw [if_neg (by norm_num [initState] :
      ¬ ((20000 : ℚ) < (initState ([] : List ℝ) 44100).lowcut))]
  have hc5 : c5Final
      = change_file (update_highcut (initState [] 44100) (some 20000)) (some ([], 8000)) := rfl
  have hkeep : c5Final.highcut
      = (update_highcut (initState [] 44100) (some 20000)).highcut := by
    rw [hc5]
    exact (change_file_skel _ _).2.2.2.1
  have hsr : c5Final.sr = 8000 := rfl
  refine ⟨hkeep.trans hhigh, hsr, ?_⟩
  rw [hkeep.trans hhigh, hsr]
  norm_num

end XFFT
